import Mathlib

/-!
Shallow embedding of the 2169-BDO-Notifier core: the weekly spawn-time
resolver, the notification gate with its dedup ledger, ledger pruning and
the daily-reset variant.  Wall-clock instants are modelled as Nat
microsecond counts since an epoch that falls on a Monday 00:00, which
matches naive Python datetime arithmetic (uniform days, weekday advancing
by one per day, total order).
-/

namespace BossNotifier

/-- Microseconds per second. -/
def usPerSecond : Nat := 1000000

/-- Microseconds per minute. -/
def usPerMinute : Nat := 60 * usPerSecond

/-- Microseconds per hour. -/
def usPerHour : Nat := 60 * usPerMinute

/-- Microseconds per day. -/
def usPerDay : Nat := 24 * usPerHour

/-- Microseconds per week, the advance applied by timedelta(weeks=1). -/
def usPerWeek : Nat := 7 * usPerDay


/-- Python datetime.weekday(): Monday is 0, Sunday is 6. -/
def weekday (t : Nat) : Nat := t / usPerDay % 7

/-- Python datetime.date(), as a day index since the epoch. -/
def dateOf (t : Nat) : Nat := t / usPerDay

/-- The time-of-day part of an instant, in microseconds since midnight. -/
def timeOfDayUs (t : Nat) : Nat := t % usPerDay

/-- One entry of a boss spawn_times list: the day name string and the
already-split HH:MM time (the source splits the time string with
map(int, spawn["time"].split(":")) before any use). -/
structure SpawnTime where
  day : String
  hour : Nat
  minute : Nat
deriving DecidableEq

/-- DAY_MAPPING from boss_notifier_app.py lines 40-48; .get returns
none for a day name that is not in the mapping. -/
def DAY_MAPPING : String → Option Nat
  | "Monday" => some 0
  | "Tuesday" => some 1
  | "Wednesday" => some 2
  | "Thursday" => some 3
  | "Friday" => some 4
  | "Saturday" => some 5
  | "Sunday" => some 6
  | _ => none

/-- Python timedelta(days = d) addition on a naive datetime. -/
def addDays (d : Nat) (t : Nat) : Nat := t + d * usPerDay

/-- Python datetime.replace(hour, minute, second = 0, microsecond = 0):
keep the date of t, set the time of day to hour:minute:00.000000. -/
def replaceTime (hour minute : Nat) (t : Nat) : Nat :=
  t / usPerDay * usPerDay + hour * usPerHour + minute * usPerMinute

/-- The naive candidate of get_next_spawn_time (lines 93-96): shift now
by daysDiff = (dayOfWeek - now.weekday() + 7) % 7 days and set the time
of day to the rule time with seconds and microseconds zeroed.  The Python
expression (d - w + 7) % 7 is written (d + 7 - w) % 7, which is equal
over the integers and never truncates in Nat since w = weekday t < 7. -/
def naiveCandidate (st : SpawnTime) (d : Nat) (current_time : Nat) : Nat :=
  replaceTime st.hour st.minute
    (addDays ((d + 7 - weekday current_time) % 7) current_time)

/-- One iteration of the loop body of get_next_spawn_time (lines 86-99):
resolve the day name (skip the rule when absent from DAY_MAPPING), build
the naive candidate, and advance by one week when the candidate is not
strictly in the future. -/
def nextSpawnForRule (st : SpawnTime) (current_time : Nat) : Option Nat :=
  match DAY_MAPPING st.day with
  | none => none
  | some d =>
    let cand := naiveCandidate st d current_time
    some (if cand ≤ current_time then cand + usPerWeek else cand)

/-- The loop of get_next_spawn_time (lines 83-102), threading the
next_spawn accumulator: an unresolvable rule leaves the accumulator
unchanged; a resolvable one replaces it when the accumulator is still
None or the candidate is strictly earlier. -/
def get_next_spawn_time_loop (current_time : Nat) :
    Option Nat → List SpawnTime → Option Nat
  | next_spawn, [] => next_spawn
  | next_spawn, spawn :: rest =>
    get_next_spawn_time_loop current_time
      (match nextSpawnForRule spawn current_time with
       | none => next_spawn
       | some cand =>
         match next_spawn with
         | none => some cand
         | some best => if cand < best then some cand else some best)
      rest

/-- get_next_spawn_time (boss_notifier_app.py lines 81-104): run the rule
loop starting from next_spawn = None; the boss_name argument is unused by
the source function as well. -/
def get_next_spawn_time (boss_name : String) (spawn_times : List SpawnTime)
    (current_time : Nat) : Option Nat :=
  get_next_spawn_time_loop current_time none spawn_times

/-- NotificationKey of the worker (boss_notifier_app.py line 205): the
tuple (boss_id, next_spawn, minutes_before). -/
structure NotificationKey where
  boss_id : String
  spawn : Nat
  minutes : Nat
deriving DecidableEq

/-- Arming-window width of the worker gate: timedelta(minutes = 1,
seconds = 5) (line 203). -/
def armWindow : Nat := usPerMinute + 5 * usPerSecond

/-- One gate evaluation for one key (lines 200-219): the source condition
threshold >= time_until > threshold - armWindow, with time_until =
next_spawn - now, is written additively, which is equivalent over the
integers and avoids Nat truncation; on fire the key is added to the
ledger. -/
def shouldFire (ledger : List NotificationKey) (boss_id : String)
    (next_spawn now : Nat) (minutes_before : Nat) :
    Bool × List NotificationKey :=
  if next_spawn ≤ now + minutes_before * usPerMinute ∧
      now + minutes_before * usPerMinute < next_spawn + armWindow then
    let key : NotificationKey := ⟨boss_id, next_spawn, minutes_before⟩
    if key ∈ ledger then (false, ledger) else (true, key :: ledger)
  else (false, ledger)

/-- Repeated gate evaluations for one fixed key at a sequence of reference
instants, threading the ledger; returns how often the gate fired. -/
def runGate (boss_id : String) (next_spawn : Nat) (minutes_before : Nat) :
    List NotificationKey → List Nat → Nat × List NotificationKey
  | ledger, [] => (0, ledger)
  | ledger, now :: rest =>
    let fire := shouldFire ledger boss_id next_spawn now minutes_before
    let later := runGate boss_id next_spawn minutes_before fire.2 rest
    ((if fire.1 then 1 else 0) + later.1, later.2)

/-- The threshold loop of NotificationWorker.run (lines 200-219): every
selected threshold is evaluated in list order (this variant has no break);
firing thresholds are collected and their keys recorded. -/
def workerGate (boss_id : String) (next_spawn now : Nat) :
    List NotificationKey → List Nat → List Nat × List NotificationKey
  | ledger, [] => ([], ledger)
  | ledger, m :: ms =>
    let fire := shouldFire ledger boss_id next_spawn now m
    let later := workerGate boss_id next_spawn now fire.2 ms
    ((if fire.1 then m :: later.1 else later.1), later.2)

/-- Per-boss step of NotificationWorker.run (lines 195-219): when
get_next_spawn_time yields nothing the boss is skipped without firing. -/
def checkBoss (ledger : List NotificationKey) (boss_id boss_name : String)
    (spawn_times : List SpawnTime) (now : Nat)
    (selected_minutes : List Nat) : List Nat × List NotificationKey :=
  match get_next_spawn_time boss_name spawn_times now with
  | none => ([], ledger)
  | some next_spawn => workerGate boss_id next_spawn now ledger selected_minutes

/-- Retention used by the worker ledger prune: timedelta(minutes = 15)
(line 224). -/
def pruneRetention : Nat := 15 * usPerMinute

/-- Ledger prune of NotificationWorker.run (lines 221-225): keep exactly
the keys whose spawn instant satisfies s_time > current_time - 15 minutes,
written additively. -/
def pruneLedger (ledger : List NotificationKey) (current_time : Nat) :
    List NotificationKey :=
  ledger.filter (fun k => decide (current_time < k.spawn + pruneRetention))

/-- notification_minutes_options offered by the worker variant UI
(boss_notifier_app.py line 299). -/
def notification_minutes_options : List Nat := [1, 3, 5, 10, 15, 30]

/-- The largest configured threshold of the worker variant, in minutes. -/
def maxConfiguredMinutes : Nat := notification_minutes_options.foldr max 0

/-- Arming-window width of the app.py gate: timedelta(seconds = 30)
(app.py line 409). -/
def armWindowApp : Nat := 30 * usPerSecond

/-- Occurrence computation of check_for_notifications (app.py lines
382-386): event_datetime = datetime.combine(now.date(), parsed HH:MM
time), advanced by one week only when event_datetime < now -
timedelta(seconds = 10); the comparison is written additively, which is
equivalent over the integers. -/
def app_event_datetime (hour minute : Nat) (now : Nat) : Nat :=
  if dateOf now * usPerDay + hour * usPerHour + minute * usPerMinute +
      10 * usPerSecond < now then
    dateOf now * usPerDay + hour * usPerHour + minute * usPerMinute + usPerWeek
  else
    dateOf now * usPerDay + hour * usPerHour + minute * usPerMinute

/-- event_id of app.py line 405: built from the boss name and the day and
time strings of the schedule row only. -/
def app_event_id (boss day time : String) : String :=
  boss ++ "_" ++ day ++ "_" ++ time

/-- notification_key of app.py line 406. -/
def appNotificationKey (event_id : String) (notify_minutes : Nat) : String :=
  event_id ++ "_" ++ toString notify_minutes ++ "min"

/-- The key under which a fire for a given occurrence is recorded in
app.py: the occurrence instant event_datetime computed at lines 382-386 is
in scope at the recording site but is not part of the key (lines 405-406). -/
def appKeyForOccurrence (boss day time : String) (event_datetime : Nat)
    (notify_minutes : Nat) : String :=
  appNotificationKey (app_event_id boss day time) notify_minutes

/-- The firing condition of app.py lines 409-410 for one threshold t: now
lies in the arming window of the occurrence (written additively, which is
equivalent over the integers) and the key has not been sent today. -/
def appDue (sent : List String) (event_id : String)
    (event_datetime now t : Nat) : Prop :=
  (event_datetime ≤ now + t * usPerMinute ∧
    now + t * usPerMinute < event_datetime + armWindowApp) ∧
  appNotificationKey event_id t ∉ sent

instance (sent : List String) (event_id : String) (event_datetime now t : Nat) :
    Decidable (appDue sent event_id event_datetime now t) :=
  inferInstanceAs (Decidable (_ ∧ _))

/-- The threshold loop of check_for_notifications (app.py lines 400-417)
over an already sorted threshold list: fire the first threshold whose
window contains now and whose key is unsent, record its key, break. -/
def appThresholdLoop (sent : List String) (event_id : String)
    (event_datetime now : Nat) : List Nat → Option Nat × List String
  | [] => (none, sent)
  | t :: rest =>
    if appDue sent event_id event_datetime now t then
      (some t, appNotificationKey event_id t :: sent)
    else appThresholdLoop sent event_id event_datetime now rest

/-- sorted(active_notification_times, reverse = True) (app.py line 400). -/
def sortDesc (l : List Nat) : List Nat := l.insertionSort (· ≥ ·)

/-- Threshold evaluation of one event row in one tick (app.py lines
398-417): sort the enabled thresholds in decreasing order, then run the
firing loop. -/
def check_event_thresholds (sent : List String) (event_id : String)
    (event_datetime now : Nat) (active_notification_times : List Nat) :
    Option Nat × List String :=
  appThresholdLoop sent event_id event_datetime now
    (sortDesc active_notification_times)

/-- The dedup state of BossNotificationApp: the notifications_sent_today
dict (modelled by its key list) and _last_reset_date (app.py lines 72-73). -/
structure AppState where
  notifications_sent_today : List String
  last_reset_date : Option Nat
deriving DecidableEq

/-- State established by BossNotificationApp.__init__ (lines 72-73). -/
def initialAppState : AppState := ⟨[], none⟩

/-- Daily reset step of check_for_notifications (app.py lines 351-356):
on a tick whose local date differs from the last recorded reset date the
dict is cleared wholesale and the reset date updated. -/
def daily_reset (st : AppState) (now : Nat) : AppState :=
  if st.last_reset_date ≠ some (dateOf now) then
    { notifications_sent_today := [], last_reset_date := some (dateOf now) }
  else st

/-- The two calls of get_next_spawn_time that a single worker tick performs
with the same current_time: once for the live info block (line 143) and
once for the gating block (line 195). -/
def worker_tick_spawn_queries (boss_name : String)
    (spawn_times : List SpawnTime) (current_time : Nat) :
    Option Nat × Option Nat :=
  (get_next_spawn_time boss_name spawn_times current_time,
   get_next_spawn_time boss_name spawn_times current_time)

/-! Helper lemmas. -/

theorem usPerMinute_val : usPerMinute = 60000000 := by decide

theorem usPerHour_val : usPerHour = 3600000000 := by decide

theorem usPerDay_val : usPerDay = 86400000000 := by decide

theorem usPerWeek_val : usPerWeek = 604800000000 := by decide

theorem dayStart_le_naiveCandidate (st : SpawnTime) (d : Nat) (t : Nat) :
    t / 86400000000 * 86400000000 ≤ naiveCandidate st d t := by
  simp only [naiveCandidate, replaceTime, addDays, weekday, usPerDay_val,
    usPerHour_val, usPerMinute_val]
  omega

theorem lt_dayStart_add (t : Nat) :
    t < t / 86400000000 * 86400000000 + 86400000000 := by
  omega

theorem nextSpawnForRule_gt {st : SpawnTime} {now r : Nat}
    (h : nextSpawnForRule st now = some r) : now < r := by
  unfold nextSpawnForRule at h
  cases hd : DAY_MAPPING st.day with
  | none => rw [hd] at h; exact absurd h (by simp)
  | some d =>
    rw [hd] at h
    simp only [Option.some.injEq] at h
    have h1 := dayStart_le_naiveCandidate st d now
    have h2 := lt_dayStart_add now
    rw [usPerWeek_val] at h
    split at h <;> omega

/-- C1 counterexample: in app.py (line 385) the week advance applies only
when the occurrence is more than 10 seconds in the past, so with the rule
time 08:00 the occurrence returned at now = Monday 08:00:00 (candidate
equal to now) and at now = Monday 08:00:05 is Monday 08:00:00 itself:
not strictly greater than now and not the candidate plus 7 days. -/
theorem c1_counterexample :
    app_event_datetime 8 0 (8 * usPerHour) = 8 * usPerHour ∧
    app_event_datetime 8 0 (8 * usPerHour + 5 * usPerSecond) = 8 * usPerHour ∧
    ¬ 8 * usPerHour + 5 * usPerSecond <
        app_event_datetime 8 0 (8 * usPerHour + 5 * usPerSecond) := by
  decide

/-- C1 amended: in the worker variant, for every rule whose day name
resolves and every reference instant now, the resolved next occurrence is
strictly greater than now, and whenever the naive candidate is less than
or equal to now — equality included — the result is that candidate plus
exactly seven days.  In the app.py variant the week advance applies only
when the naive occurrence is more than 10 seconds in the past: then the
result is the naive occurrence plus exactly seven days and is strictly
greater than now; otherwise the naive occurrence is returned unadvanced,
so it is only guaranteed to be no more than 10 seconds before now. -/
theorem c1_resolver_week_advance (st : SpawnTime) (d : Nat) (now : Nat)
    (hd : DAY_MAPPING st.day = some d) :
    (∃ r, nextSpawnForRule st now = some r ∧ now < r ∧
      (naiveCandidate st d now ≤ now →
        r = naiveCandidate st d now + usPerWeek)) ∧
    (∀ hour minute now2 : Nat,
      (dateOf now2 * usPerDay + hour * usPerHour + minute * usPerMinute +
          10 * usPerSecond < now2 →
        app_event_datetime hour minute now2 =
          dateOf now2 * usPerDay + hour * usPerHour + minute * usPerMinute +
            usPerWeek ∧
        now2 < app_event_datetime hour minute now2) ∧
      (now2 ≤ dateOf now2 * usPerDay + hour * usPerHour +
          minute * usPerMinute + 10 * usPerSecond →
        app_event_datetime hour minute now2 =
          dateOf now2 * usPerDay + hour * usPerHour + minute * usPerMinute ∧
        now2 ≤ app_event_datetime hour minute now2 + 10 * usPerSecond)) := by
  constructor
  · have heq : nextSpawnForRule st now =
        some (if naiveCandidate st d now ≤ now then
          naiveCandidate st d now + usPerWeek else naiveCandidate st d now) := by
      unfold nextSpawnForRule; rw [hd]
    exact ⟨_, heq, nextSpawnForRule_gt heq, fun hle => by simp [hle]⟩
  · intro hour minute now2
    constructor
    · intro h
      have he : app_event_datetime hour minute now2 =
          dateOf now2 * usPerDay + hour * usPerHour + minute * usPerMinute +
            usPerWeek := by
        unfold app_event_datetime; rw [if_pos h]
      refine ⟨he, ?_⟩
      rw [he]
      have h2 := lt_dayStart_add now2
      simp only [dateOf, usPerDay_val, usPerHour_val, usPerMinute_val,
        usPerWeek_val]
      omega
    · intro h
      have he : app_event_datetime hour minute now2 =
          dateOf now2 * usPerDay + hour * usPerHour + minute * usPerMinute := by
        unfold app_event_datetime; rw [if_neg (not_lt.mpr h)]
      exact ⟨he, by rw [he]; exact h⟩

/-- Witness for C1 at the rule Monday 08:00 and now = Monday 08:00:05:
the worker variant rolls to the next Monday, strictly in the future. -/
theorem c1_witness :
    ∃ r, nextSpawnForRule ⟨"Monday", 8, 0⟩
        (8 * usPerHour + 5 * usPerSecond) = some r ∧
      8 * usPerHour + 5 * usPerSecond < r ∧
      (naiveCandidate ⟨"Monday", 8, 0⟩ 0 (8 * usPerHour + 5 * usPerSecond) ≤
          8 * usPerHour + 5 * usPerSecond →
        r = naiveCandidate ⟨"Monday", 8, 0⟩ 0
            (8 * usPerHour + 5 * usPerSecond) + usPerWeek) :=
  (c1_resolver_week_advance ⟨"Monday", 8, 0⟩ 0
    (8 * usPerHour + 5 * usPerSecond) (by decide)).1

/-- C8: for every rule whose day equals the weekday of now and whose time
of day is strictly later than the time of day of now, the resolver keeps
daysDiff = 0 and returns the date of now at the rule time, with no week
advance; moreover, in the spec scenario the rule Wednesday 14:00 with
now = Monday 09:00 resolves to Wednesday 14:00 of the same week. -/
theorem c8_same_day_later_time :
    (∀ (st : SpawnTime) (d : Nat) (now : Nat),
      DAY_MAPPING st.day = some d → d = weekday now →
      st.hour < 24 → st.minute < 60 →
      timeOfDayUs now < st.hour * usPerHour + st.minute * usPerMinute →
      nextSpawnForRule st now =
        some (dateOf now * usPerDay +
          st.hour * usPerHour + st.minute * usPerMinute)) ∧
    nextSpawnForRule ⟨"Wednesday", 14, 0⟩ (9 * usPerHour) =
      some (2 * usPerDay + 14 * usPerHour) := by
  constructor
  · intro st d now hd hdow hh hm ht
    have hcand : naiveCandidate st d now =
        dateOf now * usPerDay + st.hour * usPerHour + st.minute * usPerMinute := by
      subst hdow
      simp only [naiveCandidate, addDays, replaceTime, weekday, dateOf,
        usPerDay_val, usPerHour_val, usPerMinute_val]
      omega
    have hgt : now < naiveCandidate st d now := by
      rw [hcand]
      simp only [timeOfDayUs, usPerDay_val, usPerHour_val, usPerMinute_val] at ht
      simp only [dateOf, usPerDay_val, usPerHour_val, usPerMinute_val]
      omega
    have heq : nextSpawnForRule st now =
        some (if naiveCandidate st d now ≤ now then
          naiveCandidate st d now + usPerWeek else naiveCandidate st d now) := by
      unfold nextSpawnForRule; rw [hd]
    rw [heq, if_neg (not_le.mpr hgt), hcand]
  · decide

/-- Witness for C8 at the rule Monday 10:30 and now = Monday 09:00. -/
theorem c8_witness :
    nextSpawnForRule ⟨"Monday", 10, 30⟩ (9 * usPerHour) =
      some (dateOf (9 * usPerHour) * usPerDay +
        10 * usPerHour + 30 * usPerMinute) :=
  c8_same_day_later_time.1 ⟨"Monday", 10, 30⟩ 0 (9 * usPerHour)
    (by decide) (by decide) (by decide) (by decide) (by decide)

theorem nextSpawnForRule_isSome {st : SpawnTime} (now : Nat)
    (h : (DAY_MAPPING st.day).isSome) : (nextSpawnForRule st now).isSome := by
  unfold nextSpawnForRule
  cases hd : DAY_MAPPING st.day with
  | none => rw [hd] at h; cases h
  | some d => simp

theorem loop_step_none {now : Nat} {hd : SpawnTime} {acc : Option Nat}
    (hr : nextSpawnForRule hd now = none) (tl : List SpawnTime) :
    get_next_spawn_time_loop now acc (hd :: tl) =
      get_next_spawn_time_loop now acc tl := by
  simp only [get_next_spawn_time_loop, hr]

theorem loop_step_some_none {now : Nat} {hd : SpawnTime} {cand : Nat}
    (hr : nextSpawnForRule hd now = some cand) (tl : List SpawnTime) :
    get_next_spawn_time_loop now none (hd :: tl) =
      get_next_spawn_time_loop now (some cand) tl := by
  simp only [get_next_spawn_time_loop, hr]

theorem loop_step_some_some {now : Nat} {hd : SpawnTime} {cand best : Nat}
    (hr : nextSpawnForRule hd now = some cand) (tl : List SpawnTime) :
    get_next_spawn_time_loop now (some best) (hd :: tl) =
      get_next_spawn_time_loop now
        (if cand < best then some cand else some best) tl := by
  simp only [get_next_spawn_time_loop, hr]

theorem loop_skip_all (now : Nat) (l : List SpawnTime)
    (h : ∀ st ∈ l, nextSpawnForRule st now = none) (acc : Option Nat) :
    get_next_spawn_time_loop now acc l = acc := by
  induction l generalizing acc with
  | nil => rfl
  | cons hd tl ih =>
    rw [loop_step_none (h hd (by simp)) tl]
    exact ih (fun st hst => h st (by simp [hst])) acc

theorem loop_isSome_of_acc (now : Nat) (l : List SpawnTime) :
    ∀ acc : Option Nat, acc.isSome →
      (get_next_spawn_time_loop now acc l).isSome := by
  induction l with
  | nil => intro acc hacc; exact hacc
  | cons hd tl ih =>
    intro acc hacc
    cases hr : nextSpawnForRule hd now with
    | none => rw [loop_step_none hr]; exact ih acc hacc
    | some cand =>
      cases acc with
      | none => cases hacc
      | some best =>
        rw [loop_step_some_some hr]
        split <;> exact ih _ rfl

theorem loop_isSome (now : Nat) (l : List SpawnTime) :
    ∀ acc : Option Nat,
      (∃ st ∈ l, (nextSpawnForRule st now).isSome) →
      (get_next_spawn_time_loop now acc l).isSome := by
  induction l with
  | nil => rintro acc ⟨st, hst, _⟩; cases hst
  | cons hd tl ih =>
    rintro acc ⟨st, hst, hsome⟩
    rcases List.mem_cons.mp hst with rfl | hmem
    · cases hr : nextSpawnForRule st now with
      | none => rw [hr] at hsome; cases hsome
      | some cand =>
        cases acc with
        | none =>
          rw [loop_step_some_none hr]
          exact loop_isSome_of_acc now tl _ rfl
        | some best =>
          rw [loop_step_some_some hr]
          split <;> exact loop_isSome_of_acc now tl _ rfl
    · cases hr : nextSpawnForRule hd now with
      | none => rw [loop_step_none hr]; exact ih acc ⟨st, hmem, hsome⟩
      | some cand =>
        cases acc with
        | none =>
          rw [loop_step_some_none hr]
          exact loop_isSome_of_acc now tl _ rfl
        | some best =>
          rw [loop_step_some_some hr]
          split <;> exact loop_isSome_of_acc now tl _ rfl

theorem loop_min (now : Nat) (l : List SpawnTime) :
    ∀ (acc : Option Nat) (r : Nat),
      get_next_spawn_time_loop now acc l = some r →
      (acc = some r ∨ ∃ st ∈ l, nextSpawnForRule st now = some r) ∧
      (∀ c, acc = some c → r ≤ c) ∧
      (∀ st ∈ l, ∀ c, nextSpawnForRule st now = some c → r ≤ c) := by
  induction l with
  | nil =>
    intro acc r h
    refine ⟨Or.inl h, ?_, ?_⟩
    · intro c hc; rw [hc] at h; injection h with h; omega
    · intro st hst; cases hst
  | cons hd tl ih =>
    intro acc r h
    cases hr : nextSpawnForRule hd now with
    | none =>
      rw [loop_step_none hr] at h
      obtain ⟨h1, h2, h3⟩ := ih acc r h
      refine ⟨?_, h2, ?_⟩
      · rcases h1 with h1 | ⟨st, hst, he⟩
        · exact Or.inl h1
        · exact Or.inr ⟨st, by simp [hst], he⟩
      · intro st hst c hc
        rcases List.mem_cons.mp hst with rfl | hst
        · rw [hr] at hc; cases hc
        · exact h3 st hst c hc
    | some cand =>
      cases acc with
      | none =>
        rw [loop_step_some_none hr] at h
        obtain ⟨h1, h2, h3⟩ := ih (some cand) r h
        have hrc : r ≤ cand := h2 cand rfl
        refine ⟨?_, ?_, ?_⟩
        · rcases h1 with h1 | ⟨st, hst, he⟩
          · injection h1 with h1; exact Or.inr ⟨hd, by simp, by rw [hr, h1]⟩
          · exact Or.inr ⟨st, by simp [hst], he⟩
        · intro c hc; cases hc
        · intro st hst c hc
          rcases List.mem_cons.mp hst with rfl | hst
          · rw [hr] at hc; injection hc with hc; omega
          · exact h3 st hst c hc
      | some best =>
        rw [loop_step_some_some hr] at h
        by_cases hlt : cand < best
        · rw [if_pos hlt] at h
          obtain ⟨h1, h2, h3⟩ := ih (some cand) r h
          have hrc : r ≤ cand := h2 cand rfl
          refine ⟨?_, ?_, ?_⟩
          · rcases h1 with h1 | ⟨st, hst, he⟩
            · injection h1 with h1; exact Or.inr ⟨hd, by simp, by rw [hr, h1]⟩
            · exact Or.inr ⟨st, by simp [hst], he⟩
          · intro c hc; injection hc with hc; omega
          · intro st hst c hc
            rcases List.mem_cons.mp hst with rfl | hst
            · rw [hr] at hc; injection hc with hc; omega
            · exact h3 st hst c hc
        · rw [if_neg hlt] at h
          obtain ⟨h1, h2, h3⟩ := ih (some best) r h
          have hrb : r ≤ best := h2 best rfl
          refine ⟨?_, ?_, ?_⟩
          · rcases h1 with h1 | ⟨st, hst, he⟩
            · exact Or.inl h1
            · exact Or.inr ⟨st, by simp [hst], he⟩
          · intro c hc; injection hc with hc; omega
          · intro st hst c hc
            rcases List.mem_cons.mp hst with rfl | hst
            · rw [hr] at hc; injection hc with hc; omega
            · exact h3 st hst c hc

/-- C6: for every event with a non-empty rule list all of whose day names
resolve, get_next_spawn_time returns exactly the minimum over the rules of
the per-rule next occurrence: the result is attained by some rule and is a
lower bound of every rule candidate. -/
theorem c6_next_occurrence_is_min (boss_name : String)
    (spawn_times : List SpawnTime) (now : Nat)
    (hne : spawn_times ≠ [])
    (hres : ∀ st ∈ spawn_times, (DAY_MAPPING st.day).isSome) :
    ∃ r, get_next_spawn_time boss_name spawn_times now = some r ∧
      (∃ st ∈ spawn_times, nextSpawnForRule st now = some r) ∧
      (∀ st ∈ spawn_times, ∀ c, nextSpawnForRule st now = some c → r ≤ c) := by
  obtain ⟨hd, tl, rfl⟩ := List.exists_cons_of_ne_nil hne
  have hsome : (get_next_spawn_time_loop now none (hd :: tl)).isSome :=
    loop_isSome now (hd :: tl) none
      ⟨hd, by simp, nextSpawnForRule_isSome now (hres hd (by simp))⟩
  obtain ⟨r, hr⟩ := Option.isSome_iff_exists.mp hsome
  obtain ⟨h1, _, h3⟩ := loop_min now (hd :: tl) none r hr
  rcases h1 with h1 | h1
  · cases h1
  · exact ⟨r, hr, h1, h3⟩

/-- Witness for C6 with the single rule Monday 08:00 and now = 0. -/
theorem c6_witness :
    ∃ r, get_next_spawn_time "Garmoth" [⟨"Monday", 8, 0⟩] 0 = some r ∧
      (∃ st ∈ [(⟨"Monday", 8, 0⟩ : SpawnTime)],
        nextSpawnForRule st 0 = some r) ∧
      (∀ st ∈ [(⟨"Monday", 8, 0⟩ : SpawnTime)], ∀ c,
        nextSpawnForRule st 0 = some c → r ≤ c) :=
  c6_next_occurrence_is_min "Garmoth" [⟨"Monday", 8, 0⟩] 0
    (by decide) (by decide)

/-- C10: when the rule list of an event is empty, or no rule day name is
present in DAY_MAPPING, get_next_spawn_time returns None and the worker
skips the boss in that tick: nothing fires and the ledger is unchanged. -/
theorem c10_unresolvable_rules_skipped (boss_id boss_name : String)
    (spawn_times : List SpawnTime) (now : Nat)
    (ledger : List NotificationKey) (selected_minutes : List Nat)
    (h : spawn_times = [] ∨ ∀ st ∈ spawn_times, DAY_MAPPING st.day = none) :
    get_next_spawn_time boss_name spawn_times now = none ∧
    checkBoss ledger boss_id boss_name spawn_times now selected_minutes =
      ([], ledger) := by
  have hnone : get_next_spawn_time boss_name spawn_times now = none := by
    rcases h with rfl | h
    · rfl
    · exact loop_skip_all now spawn_times
        (fun st hst => by unfold nextSpawnForRule; rw [h st hst]) none
  refine ⟨hnone, ?_⟩
  unfold checkBoss
  rw [hnone]

/-- Witness for C10 with one rule whose day name is not in DAY_MAPPING. -/
theorem c10_witness :
    get_next_spawn_time "Karanda" [⟨"Funday", 8, 0⟩] 0 = none ∧
    checkBoss [] "karanda" "Karanda" [⟨"Funday", 8, 0⟩] 0 [15] = ([], []) :=
  c10_unresolvable_rules_skipped "karanda" "Karanda" [⟨"Funday", 8, 0⟩] 0 []
    [15] (Or.inr (by decide))

theorem shouldFire_false_of_mem {ledger : List NotificationKey}
    {boss_id : String} {next_spawn now minutes_before : Nat}
    (h : (⟨boss_id, next_spawn, minutes_before⟩ : NotificationKey) ∈ ledger) :
    shouldFire ledger boss_id next_spawn now minutes_before = (false, ledger) := by
  simp only [shouldFire, if_pos h]
  split <;> rfl

theorem shouldFire_cases (ledger : List NotificationKey) (boss_id : String)
    (next_spawn now minutes_before : Nat) :
    shouldFire ledger boss_id next_spawn now minutes_before = (false, ledger) ∨
    (shouldFire ledger boss_id next_spawn now minutes_before =
        (true, ⟨boss_id, next_spawn, minutes_before⟩ :: ledger) ∧
      (next_spawn ≤ now + minutes_before * usPerMinute ∧
        now + minutes_before * usPerMinute < next_spawn + armWindow) ∧
      (⟨boss_id, next_spawn, minutes_before⟩ : NotificationKey) ∉ ledger) := by
  simp only [shouldFire]
  split
  · split
    · exact Or.inl rfl
    · exact Or.inr ⟨rfl, by assumption, by assumption⟩
  · exact Or.inl rfl

theorem runGate_of_mem (boss_id : String) (next_spawn minutes_before : Nat)
    (nows : List Nat) :
    ∀ ledger : List NotificationKey,
      (⟨boss_id, next_spawn, minutes_before⟩ : NotificationKey) ∈ ledger →
      runGate boss_id next_spawn minutes_before ledger nows = (0, ledger) := by
  induction nows with
  | nil => intro ledger _; rfl
  | cons now rest ih =>
    intro ledger h
    simp only [runGate, shouldFire_false_of_mem h, ih ledger h]
    rfl

theorem runGate_count_le_one (boss_id : String) (next_spawn minutes_before : Nat)
    (nows : List Nat) :
    ∀ ledger : List NotificationKey,
      (runGate boss_id next_spawn minutes_before ledger nows).1 ≤ 1 := by
  induction nows with
  | nil => intro ledger; exact Nat.zero_le 1
  | cons now rest ih =>
    intro ledger
    rcases shouldFire_cases ledger boss_id next_spawn now minutes_before with
      hc | ⟨hc, _, _⟩
    · simp only [runGate, hc]
      have := ih ledger
      simp only [Bool.false_eq_true, if_false, Nat.zero_add]
      exact this
    · have h0 := runGate_of_mem boss_id next_spawn minutes_before rest
        ((⟨boss_id, next_spawn, minutes_before⟩ : NotificationKey) :: ledger)
        (List.mem_cons_self _ _)
      simp only [runGate, hc, h0]
      simp

/-- C2: for a fixed notification key, across any sequence of gate
evaluations with monotonically non-decreasing now, the gate fires at most
once; it fires only when now lies in the arming window and the key is
absent from the ledger; and on firing the key is recorded, so every later
evaluation of the same key returns false. -/
theorem c2_gate_fires_at_most_once (boss_id : String)
    (next_spawn minutes_before : Nat) (ledger : List NotificationKey)
    (nows : List Nat) (hmono : nows.Chain' (· ≤ ·)) :
    (runGate boss_id next_spawn minutes_before ledger nows).1 ≤ 1 ∧
    (∀ (l : List NotificationKey) (now : Nat),
      (shouldFire l boss_id next_spawn now minutes_before).1 = true →
      (next_spawn ≤ now + minutes_before * usPerMinute ∧
        now + minutes_before * usPerMinute < next_spawn + armWindow) ∧
      (⟨boss_id, next_spawn, minutes_before⟩ : NotificationKey) ∉ l) ∧
    (∀ (l : List NotificationKey) (now : Nat),
      (shouldFire l boss_id next_spawn now minutes_before).1 = true →
      ∀ now2 : Nat,
        (shouldFire (shouldFire l boss_id next_spawn now minutes_before).2
          boss_id next_spawn now2 minutes_before).1 = false) := by
  refine ⟨runGate_count_le_one boss_id next_spawn minutes_before nows ledger,
    ?_, ?_⟩
  · intro l now h
    rcases shouldFire_cases l boss_id next_spawn now minutes_before with
      hc | ⟨_, hw, hm⟩
    · rw [hc] at h; cases h
    · exact ⟨hw, hm⟩
  · intro l now h now2
    rcases shouldFire_cases l boss_id next_spawn now minutes_before with
      hc | ⟨hc, _, _⟩
    · rw [hc] at h; cases h
    · rw [hc, shouldFire_false_of_mem (by simp)]

/-- Witness for C2: two consecutive polls inside the same arming window
fire exactly once in total. -/
theorem c2_witness :
    (runGate "garmoth" (15 * usPerMinute) 15 []
      [0, 30 * usPerSecond]).1 ≤ 1 :=
  (c2_gate_fires_at_most_once "garmoth" (15 * usPerMinute) 15 []
    [0, 30 * usPerSecond] (List.chain'_pair.mpr (by decide))).1

/-- C3 counterexample: in the app.py variant the recorded key omits the
occurrence instant, so two different occurrences of the same event row and
the same threshold — one week apart — are recorded under the same key. -/
theorem c3_counterexample :
    appKeyForOccurrence "Garmoth" "Monday" "14:00" (14 * usPerHour) 15 =
      appKeyForOccurrence "Garmoth" "Monday" "14:00"
        (14 * usPerHour + usPerWeek) 15 ∧
    14 * usPerHour ≠ 14 * usPerHour + usPerWeek :=
  ⟨rfl, by decide⟩

/-- C3 amended: in the worker variant the NotificationKey is the tuple
(boss_id, occurrence instant, threshold minutes), so two different
occurrences of the same event and threshold give distinct keys, and a
ledger containing only keys with other occurrence instants never
suppresses a fire; in the app.py variant the key omits the occurrence
instant (see the counterexample). -/
theorem c3_occurrence_in_key :
    (∀ (boss_id : String) (s1 s2 minutes : Nat), s1 ≠ s2 →
      (⟨boss_id, s1, minutes⟩ : NotificationKey) ≠ ⟨boss_id, s2, minutes⟩) ∧
    (∀ (ledger : List NotificationKey) (boss_id : String)
        (next_spawn now minutes : Nat),
      (∀ k ∈ ledger, k.spawn ≠ next_spawn) →
      next_spawn ≤ now + minutes * usPerMinute →
      now + minutes * usPerMinute < next_spawn + armWindow →
      (shouldFire ledger boss_id next_spawn now minutes).1 = true) := by
  constructor
  · intro boss_id s1 s2 minutes hne heq
    exact hne (congrArg NotificationKey.spawn heq)
  · intro ledger boss_id next_spawn now minutes hled h1 h2
    have hmem : (⟨boss_id, next_spawn, minutes⟩ : NotificationKey) ∉ ledger :=
      fun hm => hled _ hm rfl
    simp only [shouldFire, if_pos (And.intro h1 h2), if_neg hmem]

/-- Witness for C3: the key of this week differs from the key of next
week, and a record for an earlier occurrence does not suppress a fire for
a later one. -/
theorem c3_witness :
    (⟨"garmoth", 0, 5⟩ : NotificationKey) ≠ ⟨"garmoth", usPerWeek, 5⟩ ∧
    (shouldFire [⟨"garmoth", 0, 5⟩] "garmoth" (20 * usPerMinute)
      (16 * usPerMinute) 5).1 = true :=
  ⟨c3_occurrence_in_key.1 "garmoth" 0 usPerWeek 5 (by decide),
   c3_occurrence_in_key.2 [⟨"garmoth", 0, 5⟩] "garmoth" (20 * usPerMinute)
     (16 * usPerMinute) 5 (by decide) (by decide) (by decide)⟩

/-- C9: the resolver is modelled by a total function of its arguments —
the source reads only its parameters and the constant DAY_MAPPING and
mutates nothing — so the two calls a single tick makes with the same
current_time agree, and the result does not depend on the boss_name
argument at all. -/
theorem c9_resolver_pure (boss_name other_name : String)
    (spawn_times : List SpawnTime) (current_time : Nat) :
    (worker_tick_spawn_queries boss_name spawn_times current_time).1 =
      (worker_tick_spawn_queries boss_name spawn_times current_time).2 ∧
    get_next_spawn_time boss_name spawn_times current_time =
      get_next_spawn_time other_name spawn_times current_time :=
  ⟨rfl, rfl⟩

theorem pruneRetention_val : pruneRetention = 900000000 := by decide

theorem get_next_spawn_time_gt {boss_name : String} {l : List SpawnTime}
    {now r : Nat} (h : get_next_spawn_time boss_name l now = some r) :
    now < r := by
  obtain ⟨h1, -, -⟩ := loop_min now l none r h
  rcases h1 with h1 | ⟨st, -, he⟩
  · cases h1
  · exact nextSpawnForRule_gt he

/-- C5 counterexample: the prune retention is 15 minutes (line 224), which
is smaller than the largest configured threshold of 30 minutes (line 299)
plus the arming-window width; moreover an entry whose occurrence is
exactly the retention in the past — not more — is removed. -/
theorem c5_counterexample :
    pruneRetention < maxConfiguredMinutes * usPerMinute + armWindow ∧
    pruneLedger [⟨"garmoth", 0, 30⟩] pruneRetention = [] := by
  constructor
  · decide
  · decide

/-- C5 amended: pruning removes exactly the entries whose occurrence
instant is at least the 15-minute retention in the past; no key is pruned
before its occurrence has passed; and although the retention is smaller
than the largest threshold, a pruned key can never cause a re-fire: the
resolver only returns strictly future occurrences, so the spawn instant
of a pruned key is never produced again at any later reference time. -/
theorem c5_prune_exact_and_no_refire (ledger : List NotificationKey)
    (current_time : Nat) :
    (∀ k, k ∈ pruneLedger ledger current_time ↔
      k ∈ ledger ∧ current_time < k.spawn + pruneRetention) ∧
    (∀ k ∈ ledger, current_time ≤ k.spawn →
      k ∈ pruneLedger ledger current_time) ∧
    (∀ k ∈ ledger, k ∉ pruneLedger ledger current_time →
      ∀ (boss_name : String) (l : List SpawnTime) (later : Nat),
        current_time ≤ later →
        get_next_spawn_time boss_name l later ≠ some k.spawn) := by
  refine ⟨?_, ?_, ?_⟩
  · intro k
    simp [pruneLedger, List.mem_filter]
  · intro k hk hle
    simp only [pruneLedger, List.mem_filter, hk, true_and, decide_eq_true_eq]
    rw [pruneRetention_val]
    omega
  · intro k hk hnp boss_name l later hle heq
    have h1 : ¬ current_time < k.spawn + pruneRetention := fun hc =>
      hnp (by simp [pruneLedger, List.mem_filter, hk, hc])
    have h2 : later < k.spawn := get_next_spawn_time_gt heq
    omega

/-- Witness for C5: a key whose occurrence is still in the future survives
the prune. -/
theorem c5_witness :
    (⟨"garmoth", 10 * usPerMinute, 5⟩ : NotificationKey) ∈
      pruneLedger [⟨"garmoth", 10 * usPerMinute, 5⟩] (5 * usPerMinute) :=
  (c5_prune_exact_and_no_refire [⟨"garmoth", 10 * usPerMinute, 5⟩]
    (5 * usPerMinute)).2.1 _ (List.mem_singleton.mpr rfl) (by decide)

/-- C7: in the app.py variant the dedup ledger starts empty with no
recorded reset date, and on any tick whose local calendar date differs
from the last recorded reset date the ledger is cleared wholesale and the
reset date set to the current date; on a tick with an unchanged date the
state is untouched. -/
theorem c7_day_rollover_clears_ledger (st : AppState) (now : Nat) :
    initialAppState.notifications_sent_today = [] ∧
    initialAppState.last_reset_date = none ∧
    (st.last_reset_date ≠ some (dateOf now) →
      (daily_reset st now).notifications_sent_today = [] ∧
      (daily_reset st now).last_reset_date = some (dateOf now)) ∧
    (st.last_reset_date = some (dateOf now) → daily_reset st now = st) := by
  refine ⟨rfl, rfl, ?_, ?_⟩
  · intro h
    unfold daily_reset
    rw [if_pos h]
    exact ⟨rfl, rfl⟩
  · intro h
    unfold daily_reset
    rw [if_neg (fun hne => hne h)]

/-- Witness for C7: the very first tick clears the (already empty) ledger
and records the date. -/
theorem c7_witness :
    (daily_reset initialAppState 0).notifications_sent_today = [] ∧
    (daily_reset initialAppState 0).last_reset_date = some (dateOf 0) :=
  (c7_day_rollover_clears_ledger initialAppState 0).2.2.1 (by decide)

theorem appThresholdLoop_spec (sent : List String) (event_id : String)
    (event_datetime now : Nat) :
    ∀ L : List Nat, L.Sorted (· ≥ ·) →
      (((appThresholdLoop sent event_id event_datetime now L).1 = none →
        (∀ u ∈ L, ¬ appDue sent event_id event_datetime now u) ∧
        (appThresholdLoop sent event_id event_datetime now L).2 = sent) ∧
      (∀ t, (appThresholdLoop sent event_id event_datetime now L).1 = some t →
        t ∈ L ∧ appDue sent event_id event_datetime now t ∧
        (∀ u ∈ L, appDue sent event_id event_datetime now u → u ≤ t) ∧
        (appThresholdLoop sent event_id event_datetime now L).2 =
          appNotificationKey event_id t :: sent)) := by
  intro L
  induction L with
  | nil =>
    intro _
    exact ⟨fun _ => ⟨by simp, rfl⟩, fun t h => by cases h⟩
  | cons t rest ih =>
    intro hs
    obtain ⟨hge, hrest⟩ := List.sorted_cons.mp hs
    by_cases hdue : appDue sent event_id event_datetime now t
    · constructor
      · intro h
        rw [show appThresholdLoop sent event_id event_datetime now (t :: rest) =
          (some t, appNotificationKey event_id t :: sent) from by
            simp only [appThresholdLoop, if_pos hdue]] at h
        cases h
      · intro t2 h
        rw [show appThresholdLoop sent event_id event_datetime now (t :: rest) =
          (some t, appNotificationKey event_id t :: sent) from by
            simp only [appThresholdLoop, if_pos hdue]] at h ⊢
        injection h with h
        subst h
        refine ⟨by simp, hdue, ?_, rfl⟩
        intro u hu _
        rcases List.mem_cons.mp hu with rfl | hu
        · exact le_refl u
        · exact hge u hu
    · have hstep : appThresholdLoop sent event_id event_datetime now (t :: rest) =
          appThresholdLoop sent event_id event_datetime now rest := by
        simp only [appThresholdLoop, if_neg hdue]
      obtain ⟨ih1, ih2⟩ := ih hrest
      rw [hstep]
      constructor
      · intro h
        obtain ⟨hall, hsnd⟩ := ih1 h
        refine ⟨?_, hsnd⟩
        intro u hu
        rcases List.mem_cons.mp hu with rfl | hu
        · exact hdue
        · exact hall u hu
      · intro t2 h
        obtain ⟨hmem, hd2, hmax, hsnd⟩ := ih2 t2 h
        refine ⟨List.mem_cons_of_mem t hmem, hd2, ?_, hsnd⟩
        intro u hu hdu
        rcases List.mem_cons.mp hu with rfl | hu
        · exact absurd hdu hdue
        · exact hmax u hu hdu

/-- C4: per event and tick the enabled thresholds are evaluated from
largest to smallest; when no threshold is due nothing fires and the ledger
is unchanged; when one fires it is the largest threshold whose arming
window contains now and whose key is unsent, exactly its key is added to
the ledger, and the remaining smaller thresholds are skipped for the tick,
so at most one notification fires per event per tick. -/
theorem c4_largest_threshold_fires_first (sent : List String)
    (event_id : String) (event_datetime now : Nat)
    (active_notification_times : List Nat) :
    ((check_event_thresholds sent event_id event_datetime now
        active_notification_times).1 = none →
      (∀ u ∈ active_notification_times,
        ¬ appDue sent event_id event_datetime now u) ∧
      (check_event_thresholds sent event_id event_datetime now
        active_notification_times).2 = sent) ∧
    (∀ t, (check_event_thresholds sent event_id event_datetime now
        active_notification_times).1 = some t →
      t ∈ active_notification_times ∧
      appDue sent event_id event_datetime now t ∧
      (∀ u ∈ active_notification_times,
        appDue sent event_id event_datetime now u → u ≤ t) ∧
      (check_event_thresholds sent event_id event_datetime now
        active_notification_times).2 =
        appNotificationKey event_id t :: sent) := by
  have hperm : List.Perm (sortDesc active_notification_times)
      active_notification_times :=
    List.perm_insertionSort _ active_notification_times
  have hsorted : (sortDesc active_notification_times).Sorted (· ≥ ·) :=
    List.sorted_insertionSort _ active_notification_times
  obtain ⟨h1, h2⟩ := appThresholdLoop_spec sent event_id event_datetime now
    (sortDesc active_notification_times) hsorted
  constructor
  · intro h
    obtain ⟨hall, hsnd⟩ := h1 h
    exact ⟨fun u hu => hall u (hperm.mem_iff.mpr hu), hsnd⟩
  · intro t h
    obtain ⟨hmem, hdue, hmax, hsnd⟩ := h2 t h
    exact ⟨hperm.mem_iff.mp hmem, hdue,
      fun u hu hdu => hmax u (hperm.mem_iff.mpr hu) hdu, hsnd⟩

/-- Witness for C4: with thresholds 15 and 5 enabled and now 15 minutes
before the occurrence, the 15-minute threshold fires and the 5-minute one
is skipped. -/
theorem c4_witness :
    15 ∈ [5, 15] ∧
    appDue [] "Garmoth_Monday_14:00" (60 * usPerMinute) (45 * usPerMinute) 15 ∧
    (∀ u ∈ [5, 15],
      appDue [] "Garmoth_Monday_14:00" (60 * usPerMinute) (45 * usPerMinute) u →
      u ≤ 15) ∧
    (check_event_thresholds [] "Garmoth_Monday_14:00" (60 * usPerMinute)
      (45 * usPerMinute) [5, 15]).2 =
      appNotificationKey "Garmoth_Monday_14:00" 15 :: [] :=
  (c4_largest_threshold_fires_first [] "Garmoth_Monday_14:00"
    (60 * usPerMinute) (45 * usPerMinute) [5, 15]).2 15 (by decide)

end BossNotifier
